import Mathlib

/-!
Shallow embedding of the MEAM first-login encode/decode transform.

Sources:
* `src/generate_firstlogin_codes.py` — `encode_payload`, `generate_firstlogin_array`
  (key construction), `main` (audience-id length validation).
* `src/verify_firstlogin_codes.py` — `decode_payload`, `key_name` construction.

Strings are modelled as Lean `String` (a list of Unicode scalar values, matching
Python `str` for our purposes); `ord` is `Char.toNat`.  Python integers are
arbitrary precision, modelled as `Nat`/`Int`.  The float division
`encoded_value / (aud_ascii * pin_multiplier)` together with `.is_integer()` in
`decode_payload` is modelled as exact rational division (`ℚ`); for all values
produced by the encoder the Python floats are exact, so the models agree.
Python exceptions (`ZeroDivisionError` from `% 0` or `/ 0`, `ValueError` from
`int(d)` on a non-digit) are modelled as explicit result constructors.
-/

namespace SomeNumbers

/-- Base offset for audience character wrapping
(`generate_firstlogin_codes.py` line 50, `verify_firstlogin_codes.py` line 23). -/
def BASE_OFFSET : Nat := 13

/-- Left-pad a character list with `'0'` to length 4: Python `s.zfill(4)`.
(Python `zfill` places a leading `+`/`-` sign before the padding; for the
observable behaviour — which characters occupy the last four positions and
whether they are all decimal digits — the two definitions agree, since a sign
character is never a digit and is only moved, never dropped, for inputs of
length < 4.) -/
def zfill4 (s : List Char) : List Char :=
  List.replicate (4 - s.length) '0' ++ s

/-- Keep the last four characters: Python `s[-4:]` for a string of length ≥ 4. -/
def last4 (s : List Char) : List Char :=
  s.drop (s.length - 4)

/-- Normalised PIN characters: Python `pin.zfill(4)[-4:]`
(`generate_firstlogin_codes.py` line 72, `verify_firstlogin_codes.py` line 27). -/
def pin_str (pin : String) : List Char :=
  last4 (zfill4 pin.data)

/-- Python `int(d)` for a single character `d`: succeeds exactly on a decimal
digit, returning its value (`generate_firstlogin_codes.py` line 73). -/
def digit_of (c : Char) : Option Nat :=
  if '0' ≤ c ∧ c ≤ '9' then some (c.toNat - 48) else none

/-- Parse every character of a list as a decimal digit; `none` models the
`ValueError` raised by `int(d)` on the first non-digit. -/
def digits_of : List Char → Option (List Nat)
  | [] => some []
  | c :: cs =>
    match digit_of c, digits_of cs with
    | some d, some ds => some (d :: ds)
    | _, _ => none

/-- Python `pin_digits = [int(d) for d in pin.zfill(4)[-4:]]`. -/
def pin_digits_of (pin : String) : Option (List Nat) :=
  digits_of (pin_str pin)

/-- The normalized form of a PIN as a string: `pin.zfill(4)[-4:]`. -/
def pin_normalize (pin : String) : String :=
  String.mk (pin_str pin)

/-- Python `pin_multiplier = 10 if pin_digit == 0 else pin_digit`
(`generate_firstlogin_codes.py` line 93, `verify_firstlogin_codes.py` line 42). -/
def pin_multiplier (d : Nat) : Nat :=
  if d = 0 then 10 else d

/-- Audience index for position `i`: Python
`wrapped_index = (BASE_OFFSET + i) % aud_length`
(`generate_firstlogin_codes.py` lines 86–87, `verify_firstlogin_codes.py`
lines 35–36). -/
def audience_index (aud_id : String) (i : Nat) : Nat :=
  (BASE_OFFSET + i) % aud_id.length

/-- Code point of the audience character selected at position `i`: Python
`aud_ascii = ord(aud_id[wrapped_index])`.  The `getD` default is never used:
whenever this is reached, `aud_id` is non-empty, so the index is in bounds. -/
def aud_code (aud_id : String) (i : Nat) : Nat :=
  (aud_id.data.getD (audience_index aud_id i) 'A').toNat

/-- PIN multiplier used at position `i`: Python
`pin_multiplier` of `pin_digits[i % len(pin_digits)]`. -/
def pin_mult_at (pin_digits : List Nat) (i : Nat) : Nat :=
  pin_multiplier (pin_digits.getD (i % pin_digits.length) 0)

/-- The divisor `aud_ascii * pin_multiplier` used by the decoder at position
`i` (`verify_firstlogin_codes.py` line 45). -/
def divisor_at (aud_id : String) (pin_digits : List Nat) (i : Nat) : Nat :=
  aud_code aud_id i * pin_mult_at pin_digits i

/-- Encoded value at position `i`: Python
`encoded_value = char_ascii * aud_ascii * pin_multiplier`
(`generate_firstlogin_codes.py` line 96). -/
def encoded_at (aud_id : String) (pin_digits : List Nat) (i : Nat) (c : Char) : Int :=
  (c.toNat * aud_code aud_id i * pin_mult_at pin_digits i : Nat)

/-- The encoding loop of `encode_payload` (`generate_firstlogin_codes.py`
lines 81–97), with `i` the position of the first character of the remaining
list. -/
def encode_go (aud_id : String) (pin_digits : List Nat) (i : Nat) :
    List Char → List Int
  | [] => []
  | c :: cs => encoded_at aud_id pin_digits i c :: encode_go aud_id pin_digits (i + 1) cs

/-- Errors raised by `encode_payload`: `invalidKeyMaterial` models the
`ValueError("Audience ID and PIN are required")` guard (lines 68–69);
`invalidPin` models both the `ValueError` raised by `int(d)` on a non-digit
(line 73) and the dead `"PIN must be exactly 4 digits"` check (lines 75–76). -/
inductive EncodeError
  | invalidKeyMaterial
  | invalidPin
deriving Repr, DecidableEq

/-- Python `encode_payload(payload, aud_id, pin)`
(`generate_firstlogin_codes.py` lines 53–99). -/
def encode_payload (payload aud_id pin : String) : Except EncodeError (List Int) :=
  if aud_id.data = [] ∨ pin.data = [] then
    .error .invalidKeyMaterial
  else
    match pin_digits_of pin with
    | none => .error .invalidPin
    | some pin_digits =>
      if pin_digits.length ≠ 4 then .error .invalidPin
      else .ok (encode_go aud_id pin_digits 0 payload.data)

/-- The quotient `char_ascii = encoded_value / (aud_ascii * pin_multiplier)`
computed by the decoder (`verify_firstlogin_codes.py` line 45), as an exact
rational. -/
def char_value (e : Int) (d : Nat) : ℚ :=
  (e : ℚ) / (d : ℚ)

/-- Result of `decode_payload`: `ok` is the decoded string; `integrityError`
models the `"❌ DECODE ERROR at position {i}: Invalid character {char_ascii}"`
return (line 48), carrying the position and the computed quotient;
`zeroDivisionError` models the uncaught `ZeroDivisionError` raised by `% 0`
(empty audience id) or `/ 0` (audience character of code point 0);
`valueError` models the uncaught `ValueError` raised when a PIN character is
not a digit. -/
inductive DecodeResult
  | ok (s : String)
  | integrityError (pos : Nat) (value : ℚ)
  | zeroDivisionError
  | valueError
deriving Repr, DecidableEq

/-- The decoding loop of `decode_payload` (`verify_firstlogin_codes.py`
lines 33–52): processes elements left to right, aborting at the first
failure. -/
def decode_go (aud_id : String) (pin_digits : List Nat) (i : Nat) :
    List Int → DecodeResult
  | [] => .ok ""
  | e :: rest =>
    if aud_id.length = 0 then .zeroDivisionError
    else if divisor_at aud_id pin_digits i = 0 then .zeroDivisionError
    else if (char_value e (divisor_at aud_id pin_digits i)).den ≠ 1 ∨
        char_value e (divisor_at aud_id pin_digits i) < 32 ∨
        126 < char_value e (divisor_at aud_id pin_digits i) then
      .integrityError i (char_value e (divisor_at aud_id pin_digits i))
    else
      match decode_go aud_id pin_digits (i + 1) rest with
      | .ok s =>
        .ok (String.mk
          (Char.ofNat (char_value e (divisor_at aud_id pin_digits i)).num.toNat :: s.data))
      | r => r

/-- Python `decode_payload(encoded_array, aud_id, pin)`
(`verify_firstlogin_codes.py` lines 25–52). -/
def decode_payload (encoded_array : List Int) (aud_id pin : String) : DecodeResult :=
  match pin_digits_of pin with
  | none => .valueError
  | some pin_digits => decode_go aud_id pin_digits 0 encoded_array

/-- Store key construction: Python `key_name = f"firstlogin_level{level}_{aud_id}"`
(`generate_firstlogin_codes.py` line 136, `verify_firstlogin_codes.py` line 64). -/
def build_store_key (level : Nat) (aud_id : String) : String :=
  "firstlogin_level" ++ toString level ++ "_" ++ aud_id

/-- Audience-id validation in `main` (`generate_firstlogin_codes.py`
lines 220–222): Python `if not args.aud or len(args.aud) < 10`, which prints an
error and exits before any encoding happens. -/
def main_aud_check_fails (aud : String) : Bool :=
  decide (aud.data = []) || decide (aud.length < 10)

/-- Success of the decoder's validity check at one position: the quotient is an
exact integer and lies in `[32, 126]` (`verify_firstlogin_codes.py` line 47). -/
def decode_ok_at (aud_id : String) (pin_digits : List Nat) (i : Nat) (e : Int) : Prop :=
  (char_value e (divisor_at aud_id pin_digits i)).den = 1 ∧
    32 ≤ char_value e (divisor_at aud_id pin_digits i) ∧
    char_value e (divisor_at aud_id pin_digits i) ≤ 126

instance (aud_id : String) (pin_digits : List Nat) (i : Nat) (e : Int) :
    Decidable (decode_ok_at aud_id pin_digits i e) := by
  unfold decode_ok_at; infer_instance

/-- An audience id consisting of ten NUL characters (code point 0): a
non-empty string, long enough to pass the length validation in `main`, on
which the transform degenerates. -/
def nulAud10 : String :=
  String.mk (List.replicate 10 (Char.ofNat 0))

/-! ### Basic lemmas about PIN normalization -/

lemma zfill4_length (s : List Char) : (zfill4 s).length = 4 - s.length + s.length := by
  simp [zfill4]

lemma pin_str_length (pin : String) : (pin_str pin).length = 4 := by
  simp only [pin_str, last4, List.length_drop, zfill4_length]
  omega

lemma digits_of_length {l : List Char} {ds : List Nat} (h : digits_of l = some ds) :
    ds.length = l.length := by
  induction l generalizing ds with
  | nil => simp [digits_of] at h; simp [← h]
  | cons c cs ih =>
    rw [digits_of] at h
    rcases h1 : digit_of c with _ | d <;> rw [h1] at h
    · simp at h
    · rcases h2 : digits_of cs with _ | ds' <;> rw [h2] at h
      · simp at h
      · simp only [Option.some.injEq] at h
        subst h
        simp [ih h2]

lemma pin_digits_of_length {pin : String} {ds : List Nat}
    (h : pin_digits_of pin = some ds) : ds.length = 4 := by
  rw [digits_of_length h, pin_str_length]

lemma pin_multiplier_pos (d : Nat) : 0 < pin_multiplier d := by
  unfold pin_multiplier
  split <;> omega

/-! ### Basic lemmas about the per-position quantities -/

lemma getD_eq_getElem_of_lt {α : Type} (l : List α) (d : α) {n : Nat}
    (h : n < l.length) : l.getD n d = l[n] := by
  simp [List.getD_eq_getElem?_getD, List.getElem?_eq_getElem h]

lemma audience_index_lt (aud : String) (i : Nat) (ha : aud.data ≠ []) :
    audience_index aud i < aud.data.length :=
  Nat.mod_lt _ (List.length_pos.mpr ha)

lemma aud_code_mem (aud : String) (i : Nat) (ha : aud.data ≠ []) :
    ∃ c ∈ aud.data, aud_code aud i = c.toNat := by
  have h := audience_index_lt aud i ha
  refine ⟨aud.data[audience_index aud i], List.getElem_mem _, ?_⟩
  rw [aud_code, getD_eq_getElem_of_lt _ _ h]

lemma aud_code_ne_zero (aud : String) (i : Nat) (ha : aud.data ≠ [])
    (haz : ∀ c ∈ aud.data, c.toNat ≠ 0) : aud_code aud i ≠ 0 := by
  obtain ⟨c, hc, heq⟩ := aud_code_mem aud i ha
  rw [heq]
  exact haz c hc

lemma divisor_at_ne_zero (aud : String) (ds : List Nat) (i : Nat)
    (h : aud_code aud i ≠ 0) : divisor_at aud ds i ≠ 0 := by
  have := pin_multiplier_pos (ds.getD (i % ds.length) 0)
  simp only [divisor_at, pin_mult_at]
  positivity

lemma encoded_at_eq_mul_divisor (aud : String) (ds : List Nat) (i : Nat) (c : Char) :
    encoded_at aud ds i c = ((c.toNat * divisor_at aud ds i : Nat) : Int) := by
  simp [encoded_at, divisor_at, Nat.mul_assoc]

/-! ### The decoder's quotient -/

lemma char_value_of_mul (c d : Nat) (hd : d ≠ 0) :
    char_value ((c * d : Nat) : Int) d = (c : ℚ) := by
  have hdq : (d : ℚ) ≠ 0 := Nat.cast_ne_zero.mpr hd
  rw [char_value]
  push_cast
  exact mul_div_cancel_right₀ _ hdq

lemma char_value_den_one_iff (e : Int) (d : Nat) (hd : d ≠ 0) :
    (char_value e d).den = 1 ↔ (d : Int) ∣ e := by
  have hdq : (d : ℚ) ≠ 0 := Nat.cast_ne_zero.mpr hd
  constructor
  · intro h
    have h2 : ((char_value e d).num : ℚ) = char_value e d := (Rat.den_eq_one_iff _).mp h
    rw [char_value, eq_div_iff hdq] at h2
    refine ⟨(char_value e d).num, ?_⟩
    have h3 : (e : ℚ) = ((d : Int) : ℚ) * (((char_value e d).num : Int) : ℚ) := by
      push_cast
      rw [mul_comm]
      exact h2.symm
    exact_mod_cast h3
  · rintro ⟨m, rfl⟩
    have : char_value (d * m) d = (m : ℚ) := by
      rw [char_value]
      push_cast
      rw [mul_comm]
      exact mul_div_cancel_right₀ _ hdq
    rw [this, Rat.den_intCast]

/-! ### Lemmas about the encoding loop -/

lemma encode_go_length (aud : String) (ds : List Nat) (i : Nat) (cs : List Char) :
    (encode_go aud ds i cs).length = cs.length := by
  induction cs generalizing i with
  | nil => rfl
  | cons c cs ih => simp [encode_go, ih]

lemma encode_go_getD (aud : String) (ds : List Nat) (k : Nat) (cs : List Char)
    {i : Nat} (h : i < cs.length) :
    (encode_go aud ds k cs).getD i 0 = encoded_at aud ds (k + i) (cs.getD i 'A') := by
  induction cs generalizing k i with
  | nil => simp at h
  | cons c cs ih =>
    cases i with
    | zero => simp [encode_go]
    | succ j =>
      have hj : j < cs.length := by simpa using h
      simp only [encode_go, List.getD_cons_succ]
      rw [ih _ hj]
      ring_nf

lemma encode_payload_eq_ok (p aud pin : String) (ds : List Nat)
    (ha : aud.data ≠ []) (hpn : pin.data ≠ []) (hds : pin_digits_of pin = some ds) :
    encode_payload p aud pin = .ok (encode_go aud ds 0 p.data) := by
  have hg : ¬(aud.data = [] ∨ pin.data = []) := by tauto
  have hl : ¬(ds.length ≠ 4) := by
    rw [pin_digits_of_length hds]
    omega
  unfold encode_payload
  rw [if_neg hg, hds]
  dsimp only
  rw [if_neg hl]

lemma encode_payload_ok_inv {p aud pin : String} {es : List Int}
    (h : encode_payload p aud pin = .ok es) :
    aud.data ≠ [] ∧ pin.data ≠ [] ∧
      ∃ ds, pin_digits_of pin = some ds ∧ es = encode_go aud ds 0 p.data := by
  unfold encode_payload at h
  by_cases hg : aud.data = [] ∨ pin.data = []
  · rw [if_pos hg] at h
    exact absurd h (by simp)
  · rw [if_neg hg] at h
    push_neg at hg
    rcases hds : pin_digits_of pin with _ | ds <;> rw [hds] at h <;> dsimp only at h
    · exact absurd h (by simp)
    · by_cases hl : ds.length ≠ 4
      · rw [if_pos hl] at h
        exact absurd h (by simp)
      · rw [if_neg hl] at h
        simp only [Except.ok.injEq] at h
        exact ⟨hg.1, hg.2, ds, rfl, h.symm⟩

/-! ### The round-trip core -/

lemma decode_go_encode_go (aud : String) (ds : List Nat) (ha : aud.data ≠ [])
    (haz : ∀ c ∈ aud.data, c.toNat ≠ 0) (cs : List Char) (i : Nat)
    (hp : ∀ c ∈ cs, 32 ≤ c.toNat ∧ c.toNat ≤ 126) :
    decode_go aud ds i (encode_go aud ds i cs) = .ok (String.mk cs) := by
  induction cs generalizing i with
  | nil => rfl
  | cons c cs ih =>
    have hlen : aud.length ≠ 0 := fun h => ha (List.eq_nil_of_length_eq_zero h)
    have hd : divisor_at aud ds i ≠ 0 :=
      divisor_at_ne_zero aud ds i (aud_code_ne_zero aud i ha haz)
    have hv : char_value (encoded_at aud ds i c) (divisor_at aud ds i) = (c.toNat : ℚ) := by
      rw [encoded_at_eq_mul_divisor]
      exact char_value_of_mul _ _ hd
    have hc := hp c (List.mem_cons_self c cs)
    rw [encode_go, decode_go, if_neg hlen, if_neg hd, if_neg, ih (i + 1) (by
      intro x hx
      exact hp x (List.mem_cons_of_mem _ hx))]
    · rw [hv]
      simp [Rat.num_natCast, Char.ofNat_toNat]
    · rw [hv]
      push_neg
      refine ⟨by rw [Rat.den_natCast], by exact_mod_cast hc.1, by exact_mod_cast hc.2⟩

/-! ### Decoding aborts at the first invalid position -/

lemma not_decode_ok_at_iff (aud : String) (ds : List Nat) (i : Nat) (e : Int) :
    ¬ decode_ok_at aud ds i e ↔
      ((char_value e (divisor_at aud ds i)).den ≠ 1 ∨
        char_value e (divisor_at aud ds i) < 32 ∨
        126 < char_value e (divisor_at aud ds i)) := by
  rw [decode_ok_at]
  constructor
  · intro h
    by_contra hcon
    push_neg at hcon
    exact h hcon
  · rintro (h | h | h) ⟨h1, h2, h3⟩
    · exact h h1
    · exact absurd h2 (not_le.mpr h)
    · exact absurd h3 (not_le.mpr h)

lemma decode_go_first_bad (aud : String) (ds : List Nat) (ha : aud.data ≠ [])
    (es : List Int) (k i : Nat) (hi : i < es.length)
    (hgood : ∀ j, j < i →
      divisor_at aud ds (k + j) ≠ 0 ∧ decode_ok_at aud ds (k + j) (es.getD j 0))
    (hd : divisor_at aud ds (k + i) ≠ 0)
    (hbad : ¬ decode_ok_at aud ds (k + i) (es.getD i 0)) :
    decode_go aud ds k es =
      .integrityError (k + i) (char_value (es.getD i 0) (divisor_at aud ds (k + i))) := by
  have hlen : aud.length ≠ 0 := fun h => ha (List.eq_nil_of_length_eq_zero h)
  induction es generalizing k i with
  | nil => simp at hi
  | cons e rest ih =>
    cases i with
    | zero =>
      rw [Nat.add_zero] at hd hbad ⊢
      rw [List.getD_cons_zero] at hbad ⊢
      rw [decode_go, if_neg hlen, if_neg hd, if_pos ((not_decode_ok_at_iff aud ds k e).mp hbad)]
    | succ j =>
      obtain ⟨hd0, hok0⟩ := hgood 0 (Nat.succ_pos j)
      rw [Nat.add_zero] at hd0 hok0
      rw [List.getD_cons_zero] at hok0
      have hcond : ¬((char_value e (divisor_at aud ds k)).den ≠ 1 ∨
          char_value e (divisor_at aud ds k) < 32 ∨
          126 < char_value e (divisor_at aud ds k)) :=
        fun hdisj => (not_decode_ok_at_iff aud ds k e).mpr hdisj hok0
      have harith : k + 1 + j = k + (j + 1) := by omega
      have hrec := ih (k + 1) j (by simpa using hi)
        (fun j' hj' => by
          have h := hgood (j' + 1) (by omega)
          rw [List.getD_cons_succ] at h
          have ha2 : k + (j' + 1) = k + 1 + j' := by omega
          rw [ha2] at h
          exact h)
        (by rw [harith]; exact hd)
        (by rw [harith]; simpa using hbad)
      rw [decode_go, if_neg hlen, if_neg hd0, if_neg hcond, hrec]
      dsimp only
      rw [List.getD_cons_succ, ← harith]

/-! ### Totality of the decoder on nonzero key material -/

lemma decode_go_total (aud : String) (ds : List Nat) (ha : aud.data ≠ [])
    (haz : ∀ c ∈ aud.data, c.toNat ≠ 0) (es : List Int) (k : Nat) :
    (∃ s, decode_go aud ds k es = .ok s) ∨
      (∃ j v, decode_go aud ds k es = .integrityError j v) := by
  have hlen : aud.length ≠ 0 := fun h => ha (List.eq_nil_of_length_eq_zero h)
  induction es generalizing k with
  | nil => exact Or.inl ⟨"", rfl⟩
  | cons e rest ih =>
    have hd : divisor_at aud ds k ≠ 0 :=
      divisor_at_ne_zero aud ds k (aud_code_ne_zero aud k ha haz)
    by_cases hc : (char_value e (divisor_at aud ds k)).den ≠ 1 ∨
        char_value e (divisor_at aud ds k) < 32 ∨
        126 < char_value e (divisor_at aud ds k)
    · exact Or.inr ⟨k, _, by rw [decode_go, if_neg hlen, if_neg hd, if_pos hc]⟩
    · rcases ih (k + 1) with ⟨s, hs⟩ | ⟨j, v, hv⟩
      · refine Or.inl
          ⟨String.mk (Char.ofNat (char_value e (divisor_at aud ds k)).num.toNat :: s.data), ?_⟩
        rw [decode_go, if_neg hlen, if_neg hd, if_neg hc, hs]
      · refine Or.inr ⟨j, v, ?_⟩
        rw [decode_go, if_neg hlen, if_neg hd, if_neg hc, hv]

lemma encode_go_pos (aud : String) (ds : List Nat) (ha : aud.data ≠ [])
    (haz : ∀ c ∈ aud.data, c.toNat ≠ 0) (cs : List Char) (i : Nat)
    (hp : ∀ c ∈ cs, 32 ≤ c.toNat ∧ c.toNat ≤ 126) :
    ∀ x ∈ encode_go aud ds i cs, 0 < x := by
  induction cs generalizing i with
  | nil => simp [encode_go]
  | cons c cs ih =>
    intro x hx
    rw [encode_go] at hx
    rcases List.mem_cons.mp hx with rfl | hx'
    · have h1 : 32 ≤ c.toNat := (hp c (List.mem_cons_self c cs)).1
      have h2 := Nat.pos_of_ne_zero (aud_code_ne_zero aud i ha haz)
      have h3 : 0 < pin_mult_at ds i := pin_multiplier_pos _
      rw [encoded_at]
      exact_mod_cast mul_pos (mul_pos (by omega) h2) h3
    · exact ih (i + 1) (fun c' hc' => hp c' (List.mem_cons_of_mem _ hc')) x hx'

/-! ## Claim theorems -/

/-- C1, the claim as frozen, is false: with the printable payload `" "`, the
non-empty audience id `nulAud10` (ten NUL characters) and the 4-digit PIN
`"1111"`, `encode` succeeds and returns `[0]`, but decoding that array with the
same audience id and PIN divides by `0 * 1 = 0` — the Python decoder raises an
uncaught `ZeroDivisionError` (modelled as `zeroDivisionError`) instead of
returning the payload. -/
theorem roundtrip_claim_cex :
    ¬ (∀ es : List Int, encode_payload " " nulAud10 "1111" = Except.ok es →
        decode_payload es nulAud10 "1111" = DecodeResult.ok " ") := by
  intro h
  have h0 := h [0] (by rfl)
  have h1 : decode_payload [0] nulAud10 "1111" = DecodeResult.zeroDivisionError := by decide
  exact absurd (h1.symm.trans h0) (by decide)

/-- C1 (amended): for every payload composed solely of characters with code
points in `[32,126]`, every audience id all of whose characters have nonzero
code points, and every PIN accepted by `encode`, decoding the encoded array
with the same audience id and PIN returns the original payload
character-for-character.  (The hypothesis `encode_payload p aud pin = .ok es`
already forces the audience id to be non-empty and the PIN to normalize to 4
decimal digits.) -/
theorem decode_encode_roundtrip (p aud pin : String) (es : List Int)
    (hp : ∀ c ∈ p.data, 32 ≤ c.toNat ∧ c.toNat ≤ 126)
    (haz : ∀ c ∈ aud.data, c.toNat ≠ 0)
    (henc : encode_payload p aud pin = .ok es) :
    decode_payload es aud pin = .ok p := by
  obtain ⟨ha, hpn, ds, hds, hes⟩ := encode_payload_ok_inv henc
  subst hes
  unfold decode_payload
  rw [hds]
  dsimp only
  exact decode_go_encode_go aud ds ha haz p.data 0 hp

/-- Witness for C1 (amended): `encode_payload "A" "ab" "5329" = .ok [31850]`
and decoding `[31850]` with the same key material recovers `"A"`. -/
theorem decode_encode_roundtrip_witness :
    decode_payload [31850] "ab" "5329" = DecodeResult.ok "A" :=
  decode_encode_roundtrip "A" "ab" "5329" [31850] (by decide) (by decide) (by rfl)

/-- C4: for every payload string, non-empty audience id, and PIN that
normalizes to 4 decimal digits (and is non-empty, as `encode` requires),
`encode` succeeds and returns exactly one integer per character of the
payload: `len(encode(p,a,k)) == len(p)`. -/
theorem encode_length_eq (p aud pin : String) (ds : List Nat)
    (ha : aud.data ≠ []) (hpn : pin.data ≠ []) (hds : pin_digits_of pin = some ds) :
    ∃ es, encode_payload p aud pin = .ok es ∧ es.length = p.length :=
  ⟨encode_go aud ds 0 p.data, encode_payload_eq_ok p aud pin ds ha hpn hds, by
    rw [encode_go_length]; rfl⟩

/-- Witness for C4 at `p = "A"`, `aud = "ab"`, `pin = "5329"`. -/
theorem encode_length_eq_witness :
    ∃ es, encode_payload "A" "ab" "5329" = Except.ok es ∧ es.length = "A".length :=
  encode_length_eq "A" "ab" "5329" [5, 3, 2, 9] (by decide) (by decide) (by decide)

/-- C5, the claim as frozen, is false: with the valid printable payload `"A"`,
the non-empty audience id `nulAud10` (ten NUL characters, long enough to pass
the length validation in `main`) and the 4-digit PIN `"1111"`, `encode`
succeeds and returns `[0]`, whose element is not strictly positive — the
audience character code (the `ord` of a NUL character) is `0`, not positive as
the claim asserts. -/
theorem encode_positive_claim_cex :
    ¬ (∀ es : List Int, encode_payload "A" nulAud10 "1111" = Except.ok es →
        ∀ x ∈ es, (0 : Int) < x) := by
  intro h
  have h0 := h [0] (by rfl) 0 (by decide)
  exact absurd h0 (by decide)

/-- C5 (amended): every element of `encode(p,a,k)` is strictly positive for
every payload of characters with code points in `[32,126]` and every audience
id all of whose characters have nonzero code points (each element is the
product of the character code, the audience character code, and the PIN
multiplier, which are then all positive). -/
theorem encode_positive (p aud pin : String) (es : List Int)
    (hp : ∀ c ∈ p.data, 32 ≤ c.toNat ∧ c.toNat ≤ 126)
    (haz : ∀ c ∈ aud.data, c.toNat ≠ 0)
    (henc : encode_payload p aud pin = .ok es)
    (x : Int) (hx : x ∈ es) : 0 < x := by
  obtain ⟨ha, hpn, ds, hds, hes⟩ := encode_payload_ok_inv henc
  subst hes
  exact encode_go_pos aud ds ha haz p.data 0 hp x hx

/-- Witness for C5 (amended): the single element of
`encode_payload "A" "ab" "1111" = .ok [6370]` is strictly positive. -/
theorem encode_positive_witness : (0 : Int) < 6370 :=
  encode_positive "A" "ab" "1111" [6370] (by decide) (by decide) (by rfl) 6370 (by decide)

/-- C6: for every audience id of length `L ≥ 1` and every position `i`, the
audience index selected by the transform satisfies
`audience_index(i) == audience_index(i + L)`, i.e.
`(BASE_OFFSET + i) mod L == (BASE_OFFSET + i + L) mod L`, so positions `i` and
`i + L` select the same audience character. -/
theorem audience_index_wrap (aud : String) (i : Nat) (_h : 1 ≤ aud.length) :
    audience_index aud i = audience_index aud (i + aud.length) := by
  rw [audience_index, audience_index, ← Nat.add_assoc, Nat.add_mod_right]

/-- Witness for C6 at `aud = "ab"` (length 2), `i = 5`. -/
theorem audience_index_wrap_witness : audience_index "ab" 5 = audience_index "ab" 7 :=
  audience_index_wrap "ab" 5 (by decide)

lemma encode_elem_facts (p aud : String) (ds : List Nat) (es : List Int)
    (hp : ∀ c ∈ p.data, 32 ≤ c.toNat ∧ c.toNat ≤ 126)
    (hes : es = encode_go aud ds 0 p.data)
    (hpos : ∀ x ∈ es, 0 < x)
    {i : Nat} (hi : i < es.length) :
    divisor_at aud ds i ≠ 0 ∧ decode_ok_at aud ds i (es.getD i 0) := by
  subst hes
  have hlen : i < p.data.length := by rwa [encode_go_length] at hi
  have hgd : (encode_go aud ds 0 p.data).getD i 0 = encoded_at aud ds i (p.data.getD i 'A') := by
    have h := encode_go_getD aud ds 0 p.data hlen
    simpa using h
  have hchar : p.data.getD i 'A' ∈ p.data := by
    rw [getD_eq_getElem_of_lt _ _ hlen]
    exact List.getElem_mem _
  obtain ⟨h32, h126⟩ := hp _ hchar
  have hxmem : (encode_go aud ds 0 p.data).getD i 0 ∈ encode_go aud ds 0 p.data := by
    rw [getD_eq_getElem_of_lt _ _ hi]
    exact List.getElem_mem _
  have hx := hpos _ hxmem
  rw [hgd, encoded_at_eq_mul_divisor] at hx
  have hd : divisor_at aud ds i ≠ 0 := by
    intro h0
    rw [h0] at hx
    simp at hx
  refine ⟨hd, ?_⟩
  rw [decode_ok_at, hgd, encoded_at_eq_mul_divisor, char_value_of_mul _ _ hd]
  exact ⟨Rat.den_natCast _, by exact_mod_cast h32, by exact_mod_cast h126⟩

/-- C2: for every encoded integer array, non-empty audience id and PIN that
normalizes to 4 decimal digits, if position `i` is the first position whose
quotient `encoded[i] / (audience_code * multiplier)` is not an exact integer or
lies outside `[32,126]` (all earlier positions having well-defined, valid
quotients, and the divisor at `i` being nonzero so that the quotient at `i` is
defined), then decode fails exactly there with a `DecodeIntegrityError`
carrying the offending position and the computed value, aborting without
returning a partial or best-effort string. -/
theorem decode_fails_at_first_bad (es : List Int) (aud pin : String) (ds : List Nat) (i : Nat)
    (hpin : pin_digits_of pin = some ds)
    (ha : aud.data ≠ [])
    (hi : i < es.length)
    (hgood : ∀ j, j < i → divisor_at aud ds j ≠ 0 ∧ decode_ok_at aud ds j (es.getD j 0))
    (hd : divisor_at aud ds i ≠ 0)
    (hbad : ¬ decode_ok_at aud ds i (es.getD i 0)) :
    decode_payload es aud pin =
      .integrityError i (char_value (es.getD i 0) (divisor_at aud ds i)) := by
  unfold decode_payload
  rw [hpin]
  dsimp only
  have h := decode_go_first_bad aud ds ha es 0 i hi
    (fun j hj => by simpa using hgood j hj)
    (by simpa using hd)
    (by simpa using hbad)
  simpa using h

/-- Witness for C2: `[7]` decoded with audience `"ab"` and PIN `"5329"` fails
at position 0 with the computed (non-integral) value `7 / 490`. -/
theorem decode_fails_at_first_bad_witness :
    decode_payload [7] "ab" "5329" =
      DecodeResult.integrityError 0 (char_value 7 (divisor_at "ab" [5, 3, 2, 9] 0)) :=
  decode_fails_at_first_bad [7] "ab" "5329" [5, 3, 2, 9] 0 (by decide) (by decide)
    (by decide) (fun j hj => absurd hj (Nat.not_lt_zero j)) (by decide)
    (fun hok => absurd
      ((char_value_den_one_iff 7 (divisor_at "ab" [5, 3, 2, 9] 0) (by decide)).mp hok.1)
      (by decide))

/-- C3: for every valid encoded array produced by `encode` (payload printable
ASCII, all elements strictly positive — the `EncodedArray` invariant),
mutating the single element at position `j` by an amount `δ` that breaks exact
divisibility by `(audience_code * multiplier)` at that position causes decode
with the same audience id and PIN to fail with a `DecodeIntegrityError` at
position `j`, not to silently return a different string. -/
theorem tamper_detected (p aud pin : String) (ds : List Nat) (es : List Int) (j : Nat) (δ : Int)
    (hp : ∀ c ∈ p.data, 32 ≤ c.toNat ∧ c.toNat ≤ 126)
    (hpin : pin_digits_of pin = some ds)
    (henc : encode_payload p aud pin = .ok es)
    (hpos : ∀ x ∈ es, 0 < x)
    (hj : j < es.length)
    (hnd : ¬ ((divisor_at aud ds j : Int) ∣ (es.getD j 0 + δ))) :
    decode_payload (es.set j (es.getD j 0 + δ)) aud pin =
      DecodeResult.integrityError j (char_value (es.getD j 0 + δ) (divisor_at aud ds j)) := by
  obtain ⟨ha, hpn, ds2, hds2, hes⟩ := encode_payload_ok_inv henc
  rw [hpin] at hds2
  injection hds2 with hds2'
  subst hds2'
  have hfacts : ∀ i, i < es.length →
      divisor_at aud ds i ≠ 0 ∧ decode_ok_at aud ds i (es.getD i 0) :=
    fun i hi => encode_elem_facts p aud ds es hp hes hpos hi
  have hdj := (hfacts j hj).1
  have hsetj : (es.set j (es.getD j 0 + δ)).getD j 0 = es.getD j 0 + δ := by
    rw [getD_eq_getElem_of_lt _ _ (by rw [List.length_set]; exact hj)]
    simp
  unfold decode_payload
  rw [hpin]
  dsimp only
  have h := decode_go_first_bad aud ds ha (es.set j (es.getD j 0 + δ)) 0 j
    (by rw [List.length_set]; exact hj)
    (fun j' hj' => by
      have hj'lt : j' < es.length := by omega
      have hset : (es.set j (es.getD j 0 + δ)).getD j' 0 = es.getD j' 0 := by
        rw [getD_eq_getElem_of_lt _ _ (by rw [List.length_set]; exact hj'lt),
          getD_eq_getElem_of_lt _ _ hj'lt]
        exact List.getElem_set_ne (by omega) _
      rw [Nat.zero_add, hset]
      exact hfacts j' hj'lt)
    (by rw [Nat.zero_add]; exact hdj)
    (by
      rw [Nat.zero_add, hsetj]
      intro hok
      exact hnd ((char_value_den_one_iff _ _ hdj).mp hok.1))
  rw [h, hsetj]
  rw [Nat.zero_add]

/-- Witness for C3: mutating the valid encoding `[31850]` of `"A"` under
audience `"ab"` and PIN `"5329"` by `δ = 1` makes decode fail at position 0
with the computed value `31851 / 490`. -/
theorem tamper_detected_witness :
    decode_payload [31851] "ab" "5329" =
      DecodeResult.integrityError 0 (char_value 31851 (divisor_at "ab" [5, 3, 2, 9] 0)) := by
  have h := tamper_detected "A" "ab" "5329" [5, 3, 2, 9] [31850] 0 1
    (by decide) (by decide) (by rfl) (by decide) (by decide) (by decide)
  simpa using h

lemma pin_str_mk_of_length_four {l : List Char} (h : l.length = 4) :
    pin_str (String.mk l) = l := by
  show last4 (zfill4 l) = l
  simp [zfill4, last4, h]

lemma pin_digits_of_normalize (pin : String) :
    pin_digits_of (pin_normalize pin) = pin_digits_of pin := by
  rw [pin_digits_of, pin_normalize, pin_str_mk_of_length_four (pin_str_length pin)]
  rfl

/-- C7: `encode` normalizes the supplied PIN to exactly 4 characters by
left-padding with zeros and keeping only the last 4 (so any non-empty PIN and
its normalized form encode identically — in particular a 2-digit PIN and its
zero-padded form), and it fails with `InvalidPin` whenever the PIN characters
do not parse as 4 decimal digits after this normalization (e.g. non-numeric
input), for any non-empty audience id. -/
theorem pin_normalization_and_invalid (p aud pin : String) :
    (pin.data ≠ [] → encode_payload p aud pin = encode_payload p aud (pin_normalize pin)) ∧
    (aud.data ≠ [] → pin_digits_of pin = none →
      encode_payload p aud pin = .error .invalidPin) := by
  constructor
  · intro hpn
    have hzn : (pin_normalize pin).data ≠ [] := by
      intro hnil
      have h4 := pin_str_length pin
      rw [show (pin_normalize pin).data = pin_str pin from rfl] at hnil
      rw [hnil] at h4
      simp at h4
    by_cases hg : aud.data = []
    · unfold encode_payload
      rw [if_pos (Or.inl hg), if_pos (Or.inl hg)]
    · have h1 : ¬(aud.data = [] ∨ pin.data = []) := by tauto
      have h2 : ¬(aud.data = [] ∨ (pin_normalize pin).data = []) := by tauto
      unfold encode_payload
      rw [if_neg h1, if_neg h2, pin_digits_of_normalize]
  · intro ha hnone
    have hpn : pin.data ≠ [] := by
      intro hnil
      have hempty : pin = String.mk [] := String.ext hnil
      rw [hempty] at hnone
      exact absurd hnone (by decide)
    have h1 : ¬(aud.data = [] ∨ pin.data = []) := by tauto
    unfold encode_payload
    rw [if_neg h1, hnone]

/-- Witness for C7: a 2-digit PIN and its zero-padded form encode identically,
and a non-numeric PIN is rejected with `InvalidPin`. -/
theorem pin_normalization_and_invalid_witness :
    encode_payload "A" "zz" "29" = encode_payload "A" "zz" "0029" ∧
    encode_payload "A" "zz" "12x4" = Except.error EncodeError.invalidPin := by
  constructor
  · have h := (pin_normalization_and_invalid "A" "zz" "29").1 (by decide)
    have hn : pin_normalize "29" = "0029" := by decide
    rw [hn] at h
    exact h
  · exact (pin_normalization_and_invalid "A" "zz" "12x4").2 (by decide) (by decide)

lemma build_store_key_data (l : Nat) (a : String) :
    (build_store_key l a).data =
      ("firstlogin_level".data ++ (toString l).data ++ "_".data) ++ a.data := by
  simp [build_store_key, String.data_append, List.append_assoc]

/-- C8: `build_store_key(level, aud)` is the string
`"firstlogin_level<level>_<aud>"`; as a pure function it is identical across
repeated calls with the same arguments, and for levels restricted to
`{1, 2, 3}` two calls produce the same key exactly when both the level and the
audience id agree — so calls differing in level or audience id produce
different keys. -/
theorem build_store_key_inj (l l' : Nat) (a a' : String)
    (hl : l = 1 ∨ l = 2 ∨ l = 3) (hl' : l' = 1 ∨ l' = 2 ∨ l' = 3) :
    build_store_key l a = build_store_key l' a' ↔ (l = l' ∧ a = a') := by
  constructor
  · intro h
    have hd := congrArg String.data h
    rw [build_store_key_data, build_store_key_data] at hd
    rcases hl with rfl | rfl | rfl <;> rcases hl' with rfl | rfl | rfl <;>
      have hinj := List.append_inj hd (by decide) <;>
      first
        | exact ⟨rfl, String.ext hinj.2⟩
        | exact absurd hinj.1 (by decide)
  · rintro ⟨rfl, rfl⟩
    rfl

/-- Witness for C8: levels 1 and 2 with the same audience id give different
keys. -/
theorem build_store_key_inj_witness :
    build_store_key 1 "x" ≠ build_store_key 2 "x" :=
  fun h => absurd
    ((build_store_key_inj 1 2 "x" "x" (Or.inl rfl) (Or.inr (Or.inl rfl))).mp h).1
    (by decide)

/-- C9: the encoder rejects an empty audience id with `InvalidKeyMaterial`
(the `"Audience ID and PIN are required"` guard), and `main` rejects — before
any encoding — every audience id that is missing/empty or shorter than the
minimum length threshold of 10 characters. -/
theorem invalid_key_material_rejection :
    (∀ p k : String, encode_payload p "" k = .error .invalidKeyMaterial) ∧
    (∀ a : String, a.data = [] ∨ a.length < 10 → main_aud_check_fails a = true) := by
  constructor
  · intro p k
    unfold encode_payload
    rw [if_pos (Or.inl rfl)]
  · intro a hA
    simp only [main_aud_check_fails, Bool.or_eq_true, decide_eq_true_eq]
    exact hA

/-- Witness for C9: the empty audience id is rejected by `encode` and the
10-character minimum length check rejects `"short"`. -/
theorem invalid_key_material_rejection_witness :
    encode_payload "A" "" "1111" = Except.error EncodeError.invalidKeyMaterial ∧
    main_aud_check_fails "short" = true :=
  ⟨invalid_key_material_rejection.1 "A" "1111",
   invalid_key_material_rejection.2 "short" (Or.inr (by decide))⟩

/-- C10, the claim as frozen, is false: with the non-empty audience id
`nulAud10` (ten NUL characters) and the 4-digit PIN `"1111"`, decoding the
array `[1]` is not total in the claimed sense — it neither returns a decoded
string nor an integrity error, because the divisor
`aud_ascii * pin_multiplier = 0 * 1` is zero and the Python decoder raises an
uncaught `ZeroDivisionError`. -/
theorem decode_total_claim_cex :
    ¬ ((∃ s, decode_payload [1] nulAud10 "1111" = DecodeResult.ok s) ∨
        (∃ j v, decode_payload [1] nulAud10 "1111" = DecodeResult.integrityError j v)) := by
  have h : decode_payload [1] nulAud10 "1111" = DecodeResult.zeroDivisionError := by decide
  rintro (⟨s, hs⟩ | ⟨j, v, hv⟩)
  · rw [h] at hs
    exact DecodeResult.noConfusion hs
  · rw [h] at hv
    exact DecodeResult.noConfusion hv

/-- C10 (amended): `decode` performs no validation of its key material.  For
every audience id that is non-empty and all of whose characters have nonzero
code points, and every PIN normalizing to 4 decimal digits, decode is total on
every integer array: it returns either a decoded string or an integrity error.
When the audience id is the empty string and the encoded array is non-empty,
the audience-index computation `(BASE_OFFSET + i) mod length(audience_id)`
divides by zero, so decode raises `ZeroDivisionError` instead of failing with
`InvalidKeyMaterial`. -/
theorem decode_no_key_validation :
    (∀ (es : List Int) (aud pin : String) (ds : List Nat),
        pin_digits_of pin = some ds → aud.data ≠ [] →
        (∀ c ∈ aud.data, c.toNat ≠ 0) →
        (∃ s, decode_payload es aud pin = .ok s) ∨
          (∃ j v, decode_payload es aud pin = .integrityError j v)) ∧
    (∀ (e : Int) (es : List Int) (pin : String) (ds : List Nat),
        pin_digits_of pin = some ds →
        decode_payload (e :: es) "" pin = .zeroDivisionError) := by
  constructor
  · intro es aud pin ds hds ha haz
    unfold decode_payload
    rw [hds]
    dsimp only
    exact decode_go_total aud ds ha haz es 0
  · intro e es pin ds hds
    unfold decode_payload
    rw [hds]
    dsimp only
    rw [decode_go, if_pos (show "".length = 0 from rfl)]

/-- Witness for C10 (amended): decoding a non-empty array with the empty
audience id divides by zero. -/
theorem decode_no_key_validation_witness :
    decode_payload [5] "" "1111" = DecodeResult.zeroDivisionError :=
  decode_no_key_validation.2 5 [] "1111" [1, 1, 1, 1] (by decide)

end SomeNumbers
